import Mathlib

set_option maxHeartbeats 1000000

/-!
Verification development for the vscode-rust language-client middleware
(`editors/code/src/client.ts`): the hover enricher (`toTrusted`,
`renderCommand`, `renderHoverActions`, the `provideHover` middleware) and the
code-action grouping / lazy-resolution pass (`provideCodeActions`,
`isCodeActionWithoutEditsAndCommands`).

The embedding models JavaScript values that flow through the middleware as
explicit Lean data.  JSON-ish protocol payloads are `JsonValue`; truthiness of
JavaScript values is modelled explicitly where the code branches on it.
The transport (`client.sendRequest`) is modelled as an `Except` outcome handed
to the transform, and the `logFailedRequest` diagnostic output as an explicit
list of log events returned alongside the result.
-/

/-- A JSON-like value, standing for the untyped JavaScript values carried in
protocol payloads (`arguments`, `id`, extension fields, ...). -/
inductive JsonValue where
  | null
  | bool (b : Bool)
  | num (n : Int)
  | str (s : String)
  | arr (xs : List JsonValue)
  | obj (fields : List (String × JsonValue))

/-- JavaScript truthiness of a JSON value (objects and arrays are truthy,
`null` is falsy, `0` and the empty string are falsy). -/
def truthyJson : JsonValue → Bool
  | .null => false
  | .bool b => b
  | .num n => n != 0
  | .str s => s != ""
  | .arr _ => true
  | .obj _ => true

/-- Truthiness of an optional field: an absent field (`undefined`) is falsy. -/
def optTruthy : Option JsonValue → Bool
  | none => false
  | some v => truthyJson v

/-- The library predicate `Is.string`. -/
def isStringV : JsonValue → Bool
  | .str _ => true
  | _ => false

/-- One hexadecimal digit, upper case, as produced by `encodeURIComponent`. -/
def hexDigitStr (n : Nat) : String :=
  if n < 10 then toString n
  else if n = 10 then "A"
  else if n = 11 then "B"
  else if n = 12 then "C"
  else if n = 13 then "D"
  else if n = 14 then "E"
  else "F"

/-- UTF-8 encoding of a Unicode code point, as a list of byte values. -/
def utf8Bytes (n : Nat) : List Nat :=
  if n < 0x80 then [n]
  else if n < 0x800 then [0xC0 + n / 64, 0x80 + n % 64]
  else if n < 0x10000 then [0xE0 + n / 4096, 0x80 + (n / 64) % 64, 0x80 + n % 64]
  else [0xF0 + n / 262144, 0x80 + (n / 4096) % 64, 0x80 + (n / 64) % 64, 0x80 + n % 64]

/-- The characters `encodeURIComponent` leaves unescaped:
`A-Z a-z 0-9 - _ . ! ~ * ' ( )`. -/
def uriUnreserved (n : Nat) : Bool :=
  (65 ≤ n && n ≤ 90) || (97 ≤ n && n ≤ 122) || (48 ≤ n && n ≤ 57) ||
  n == 45 || n == 95 || n == 46 || n == 33 || n == 126 || n == 42 ||
  n == 39 || n == 40 || n == 41

/-- Percent-encoding of one byte, e.g. `91 ↦ "%5B"`. -/
def percentByte (n : Nat) : String :=
  "%" ++ hexDigitStr (n / 16) ++ hexDigitStr (n % 16)

/-- JavaScript `encodeURIComponent`: unreserved characters are kept, every
other character is percent-encoded through its UTF-8 bytes. -/
def encodeURIComponent (s : String) : String :=
  String.join (s.toList.map fun c =>
    if uriUnreserved c.toNat then String.singleton c
    else String.join ((utf8Bytes c.toNat).map percentByte))

/-- JSON string escaping of one character (`JSON.stringify` on strings). -/
def escapeJsonChar (c : Char) : String :=
  let n := c.toNat
  if n == 34 then "\\\""
  else if n == 92 then "\\\\"
  else if n == 10 then "\\n"
  else if n == 9 then "\\t"
  else if n == 13 then "\\r"
  else if n == 8 then "\\b"
  else if n == 12 then "\\f"
  else if n < 32 then "\\u00" ++ hexDigitStr (n / 16) ++ hexDigitStr (n % 16)
  else String.singleton c

/-- JSON string escaping (`JSON.stringify` body of a string literal). -/
def escapeJson (s : String) : String :=
  String.join (s.toList.map escapeJsonChar)

mutual

/-- JavaScript `JSON.stringify` on our JSON values. -/
def jsonStringify : JsonValue → String
  | .null => "null"
  | .bool true => "true"
  | .bool false => "false"
  | .num n => toString n
  | .str s => "\"" ++ escapeJson s ++ "\""
  | .arr xs => "[" ++ jsonStringifyList xs ++ "]"
  | .obj fs => "\x7b" ++ jsonStringifyFields fs ++ "\x7d"

/-- Comma-separated serialization of array elements. -/
def jsonStringifyList : List JsonValue → String
  | [] => ""
  | [x] => jsonStringify x
  | x :: y :: rest => jsonStringify x ++ "," ++ jsonStringifyList (y :: rest)

/-- Comma-separated serialization of object fields. -/
def jsonStringifyFields : List (String × JsonValue) → String
  | [] => ""
  | [(k, v)] => "\"" ++ escapeJson k ++ "\":" ++ jsonStringify v
  | (k, v) :: f :: rest =>
    "\"" ++ escapeJson k ++ "\":" ++ jsonStringify v ++ "," ++ jsonStringifyFields (f :: rest)

end

/-- Is `pat` a leading segment of `l`?  (Helper for substring search.) -/
def charsLead : List Char → List Char → Bool
  | [], _ => true
  | _ :: _, [] => false
  | a :: as, b :: bs => a == b && charsLead as bs

/-- Does `pat` occur somewhere inside `l`?  (Helper for substring search.) -/
def charsHaveSub (pat : List Char) : List Char → Bool
  | [] => charsLead pat []
  | c :: cs => charsLead pat (c :: cs) || charsHaveSub pat cs

/-- JavaScript `String.includes`. -/
def strIncludes (s pat : String) : Bool :=
  charsHaveSub pat.toList s.toList

/-- A `vscode.MarkdownString` hover block (the converter produces markdown
blocks for all hover contents). -/
structure MarkdownString where
  value : String
  isTrusted : Bool := false
deriving DecidableEq

/-- `toTrusted` (client.ts:10-17): mark a hover block trusted when it embeds a
fenced rust code sample, otherwise return it unchanged. -/
def toTrusted (obj : MarkdownString) : MarkdownString :=
  if strIncludes obj.value "```rust" then { obj with isTrusted := true }
  else obj

/-- Modelled from the spec: `CommandLink` - `{title, command, tooltip: optional
string, arguments: ordered sequence of opaque values}`.  The interface itself
lives outside the provided source; the fields are the ones `renderCommand`
reads. -/
structure CommandLink where
  title : String
  command : String
  tooltip : Option String := none
  arguments : List JsonValue

/-- Modelled from the spec: `CommandLinkGroup` - `{title: optional string,
commands: ordered sequence of CommandLink}`. -/
structure CommandLinkGroup where
  title : Option String := none
  commands : List CommandLink

/-- Rendering of `cmd.tooltip!` inside a template literal: an absent tooltip
(`undefined`) is interpolated as the text `undefined`. -/
def tooltipText : Option String → String
  | some t => t
  | none => "undefined"

/-- `renderCommand` (client.ts:19-21): one command link as a markdown
hyperlink `[title](command:cmd?encodedArgs 'tooltip')`. -/
def renderCommand (cmd : CommandLink) : String :=
  "[" ++ cmd.title ++ "](command:" ++ cmd.command ++ "?" ++
    encodeURIComponent (jsonStringify (JsonValue.arr cmd.arguments)) ++
    " \x27" ++ tooltipText cmd.tooltip ++ "\x27)"

/-- Truthy group title prefix: `group.title ? group.title + " " : ""`. -/
def groupTitlePart : Option String → String
  | some t => if t == "" then "" else t ++ " "
  | none => ""

/-- `renderHoverActions` (client.ts:23-31): groups joined by `___`, commands
inside a group joined by `. | .`, result marked trusted. -/
def renderHoverActions (actions : List CommandLinkGroup) : MarkdownString :=
  { value := String.intercalate "___" (actions.map fun group =>
      groupTitlePart group.title ++
        String.intercalate " | " (group.commands.map renderCommand))
  , isTrusted := true }

/-- The raw hover response payload: converted contents plus the experimental
side-channel `actions` field (`none` models an absent or null field). -/
structure HoverResult where
  contents : List MarkdownString
  actions : Option (List CommandLinkGroup) := none

/-- The `vscode.Hover` handed back to the editor. -/
structure Hover where
  contents : List MarkdownString
deriving DecidableEq

/-- One diagnostic-channel entry produced by `client.logFailedRequest`. -/
inductive LogEvent where
  | failedRequest (method : String) (error : String)
deriving DecidableEq

/-- `provideHover` middleware (client.ts:61-81), as a function of the
transport outcome: on success convert the hover, mark blocks trusted, append
the rendered action bar when the `actions` field is present (JS truthiness:
an empty array is truthy); on transport failure log and resolve `null`. -/
def provideHover (resp : Except String (Option HoverResult)) :
    Option Hover × List LogEvent :=
  match resp with
  | .error e => (none, [LogEvent.failedRequest "textDocument/hover" e])
  | .ok none => (none, [])
  | .ok (some r) =>
    let contents := r.contents.map toTrusted
    match r.actions with
    | some actions => (some ⟨contents ++ [renderHoverActions actions]⟩, [])
    | none => (some ⟨contents⟩, [])

/-- A diagnostic attached to a code action.  The converted protocol type is
not inspected by the middleware, so its payload is left abstract; a field of
this list type always passes the library's `Is.typedArray(_, Diagnostic.is)`
shape check by construction. -/
structure Diagnostic where
  payload : String

/-- A raw element of the transport's code-action response
(`(Command | CodeAction)[]`), as the loosely typed JavaScript object the
middleware probes: each protocol field is optional, `title` may hold a value
of any type, and the experimental extension fields `group` and `id` ride
along. -/
structure RawItem where
  title : JsonValue
  diagnostics : Option (List Diagnostic) := none
  kind : Option JsonValue := none
  edit : Option JsonValue := none
  command : Option JsonValue := none
  group : Option String := none
  id : Option JsonValue := none

/-- Modelled from the spec: the library predicate `lc.CodeAction.is` used at
client.ts:96 (the predicate body lives in vscode-languageclient, outside this
repository).  Per the spec, branch 1 is taken by "a fully-specified action
(carries an edit or a command already)": a string title, a well-shaped
optional kind and diagnostics list, and an edit or command field present. -/
def lcCodeActionIs (item : RawItem) : Bool :=
  isStringV item.title &&
  (match item.kind with
   | none => true
   | some k => isStringV k) &&
  (item.edit.isSome || item.command.isSome)

/-- `isCodeActionWithoutEditsAndCommands` (client.ts:183-189): a string
title, well-shaped optional kind (the typed `diagnostics` field always passes
its array check), and both `edit` and `command` absent. -/
def isCodeActionWithoutEditsAndCommands (item : RawItem) : Bool :=
  isStringV item.title &&
  (match item.kind with
   | none => true
   | some k => isStringV k) &&
  (item.edit.isNone && item.command.isNone)

/-- The string content of a title known to be a string (after the shape
asserts have passed). -/
def titleOf (item : RawItem) : String :=
  match item.title with
  | .str s => s
  | _ => ""

/-- The `group` tag as the grouping code sees it: `if (group)` tests JS
truthiness, so an empty-string tag behaves like an absent one. -/
def truthyTag (item : RawItem) : Option String :=
  match item.group with
  | some g => if g = "" then none else some g
  | none => none

/-- The converted `lc.CodeActionParams` captured by the request
(client.ts:85-89); the middleware never inspects them, only threads them into
`resolveParams`, so the converted fields are carried as plain strings. -/
structure CodeActionParams where
  textDocument : String
  range : String
  context : String
deriving DecidableEq

/-- `ra.ResolveCodeActionParams` (client.ts:106-109): the stub's `id` plus
the original request parameters. -/
structure ResolveCodeActionParams where
  id : Option JsonValue
  codeActionParams : CodeActionParams

/-- An argument value carried by a produced action's command: either the
deferred-resolution parameters, or the composite payload of
`(label, first invocation argument)` pairs. -/
inductive CmdArg where
  | resolve (p : ResolveCodeActionParams)
  | payload (entries : List (String × Option CmdArg))

/-- A `vscode.Command` attached to a produced action. -/
structure CodeCmd where
  command : String
  title : String
  arguments : List CmdArg

/-- A produced `vscode.CodeAction`: title, optional edit (never set by this
pass), optional attached command. -/
structure DisplayAction where
  title : String
  edit : Option String := none
  command : Option CodeCmd := none

/-- One element of the grouping pass's output: either a fully-specified
protocol action passed through the protocol-to-editor converter unchanged, or
an action this pass constructed. -/
inductive OutItem where
  | passthrough (item : RawItem)
  | act (a : DisplayAction)

/-- `item.command!!.arguments!![0]` (client.ts:136): the first argument of an
action's attached command. -/
def firstCmdArg (a : DisplayAction) : Option CmdArg :=
  match a.command with
  | some c => c.arguments.head?
  | none => none

/-- The deferred-resolution action built for a stub (client.ts:103-114):
titled by the stub's title, no edit, sole invocation the fixed
`rust-analyzer.resolveCodeAction` command with `{id, codeActionParams}`. -/
def mkAct (params : CodeActionParams) (item : RawItem) : DisplayAction :=
  { title := titleOf item
  , edit := none
  , command := some
      { command := "rust-analyzer.resolveCodeAction"
      , title := titleOf item
      , arguments := [CmdArg.resolve { id := item.id, codeActionParams := params }] } }

/-- One entry of the transient `groups` map (client.ts:93): the reserved
output slot index and the member actions collected so far. -/
structure GroupEntry where
  index : Nat
  items : List DisplayAction

/-- `groups.get` on the insertion-ordered map, modelled as an association
list. -/
def lookupGroup : List (String × GroupEntry) → String → Option GroupEntry
  | [], _ => none
  | (k, e) :: rest, g => if k = g then some e else lookupGroup rest g

/-- `entry.items.push(action)` on the entry stored under key `g`. -/
def pushItem : List (String × GroupEntry) → String → DisplayAction →
    List (String × GroupEntry)
  | [], _, _ => []
  | (k, e) :: rest, g, a =>
    if k = g then (k, ⟨e.index, e.items ++ [a]⟩) :: rest
    else (k, e) :: pushItem rest g a

/-- One iteration of the per-item loop (client.ts:94-126) over the state
`(result, groups)`: fully-specified actions assert `!item.command` and pass
through; stubs get a deferred-resolution action, routed through the groups
map when their tag is truthy; anything else fails the shape assert. -/
def processItem (params : CodeActionParams)
    (st : List OutItem × List (String × GroupEntry)) (item : RawItem) :
    Except String (List OutItem × List (String × GroupEntry)) :=
  if lcCodeActionIs item then
    if optTruthy item.command then
      .error "We don't expect to receive commands in CodeActions"
    else .ok (st.1 ++ [OutItem.passthrough item], st.2)
  else if isCodeActionWithoutEditsAndCommands item then
    let action := mkAct params item
    match truthyTag item with
    | some g =>
      match lookupGroup st.2 g with
      | some _ => .ok (st.1, pushItem st.2 g action)
      | none => .ok (st.1 ++ [OutItem.act action], st.2 ++ [(g, ⟨st.1.length, [action]⟩)])
    | none => .ok (st.1 ++ [OutItem.act action], st.2)
  else .error "We don't expect edits or commands here"

/-- The whole per-item loop, propagating the first assertion failure. -/
def processItems (params : CodeActionParams) :
    List RawItem → List OutItem × List (String × GroupEntry) →
    Except String (List OutItem × List (String × GroupEntry))
  | [], st => .ok st
  | it :: rest, st =>
    match processItem params st it with
    | .error msg => .error msg
    | .ok st' => processItems params rest st'

/-- The collapsed content of one group slot (client.ts:127-141): a sole
member is unwrapped; otherwise a composite action titled by the group tag
whose sole invocation is `rust-analyzer.applyActionGroup` with the ordered
`{label, arguments}` payload. -/
def collapsedSlot (g : String) (items : List DisplayAction) : OutItem :=
  match items with
  | [a] => OutItem.act a
  | _ => OutItem.act
      { title := g
      , edit := none
      , command := some
          { command := "rust-analyzer.applyActionGroup"
          , title := ""
          , arguments := [CmdArg.payload (items.map fun a => (a.title, firstCmdArg a))] } }

/-- The post-pass collapsing loop (client.ts:127-141): each group entry, in
insertion order, overwrites its reserved slot. -/
def collapseGroups (res : List OutItem) (grps : List (String × GroupEntry)) :
    List OutItem :=
  grps.foldl (fun r p => r.set p.2.index (collapsedSlot p.1 p.2.items)) res

/-- `provideCodeActions` middleware (client.ts:84-146), as a function of the
transport outcome: a transport failure resolves to `undefined` with no
logging (`(_error) => undefined`); a `null` response resolves to `undefined`;
otherwise the grouping pass runs and its assertion failures propagate. -/
def provideCodeActions (params : CodeActionParams)
    (resp : Except String (Option (List RawItem))) :
    Except String (Option (List OutItem)) × List LogEvent :=
  match resp with
  | .error _ => (.ok none, [])
  | .ok none => (.ok none, [])
  | .ok (some values) =>
    match processItems params values ([], []) with
    | .error msg => (.error msg, [])
    | .ok (res, grps) => (.ok (some (collapseGroups res grps)), [])

/-- Modelled from the spec: the re-feeding step of the idempotence scenario -
"treating the produced actions as already-resolved, fully-specified non-stub
actions" - encodes a produced action back into a raw protocol element.  A
pass-through action is its original protocol item; a constructed action
carries its string title and its attached command (re-encoded as an object;
the re-run only probes the field's presence and truthiness). -/
def cmdToJson (c : CodeCmd) : JsonValue :=
  JsonValue.obj [("command", JsonValue.str c.command), ("title", JsonValue.str c.title)]

/-- Modelled from the spec: encode one output element of the grouping pass as
a raw protocol element for re-feeding (see `cmdToJson`). -/
def toRawItem : OutItem → RawItem
  | .passthrough it => it
  | .act a =>
    { title := JsonValue.str a.title
    , diagnostics := none
    , kind := none
    , edit := a.edit.map JsonValue.str
    , command := a.command.map cmdToJson
    , group := none
    , id := none }

/-- A fully-specified action the pass accepts: it takes branch 1
(`lc.CodeAction.is`) and survives the `!item.command` assert. -/
def validFull (it : RawItem) : Bool :=
  lcCodeActionIs it && !optTruthy it.command

/-- A raw element the pass accepts without an assertion failure. -/
def validItem (it : RawItem) : Bool :=
  validFull it || isCodeActionWithoutEditsAndCommands it

/-- A raw element that reaches the grouped-stub branch for tag `G`: it fails
`lc.CodeAction.is`, passes the stub shape check, and carries the truthy tag
`G`. -/
def isGroupMember (G : String) (it : RawItem) : Bool :=
  !lcCodeActionIs it && isCodeActionWithoutEditsAndCommands it &&
    (match truthyTag it with
     | some g => decide (g = G)
     | none => false)

/-- The stubs of the input that the pass collects under tag `G`, in input
order. -/
def groupMembers (items : List RawItem) (G : String) : List RawItem :=
  items.filter (isGroupMember G)

/-- The output position of the slot reserved when tag `G` is first
encountered: walking the input, every pass-through action and every
ungrouped stub occupies one slot, a stub with a fresh tag reserves one slot,
a stub with an already-seen tag occupies none; the walk stops at the first
`G`-tagged stub. -/
def slotPosAux (G : String) : List RawItem → List String → Nat → Option Nat
  | [], _, _ => none
  | it :: rest, seen, n =>
    if lcCodeActionIs it then slotPosAux G rest seen (n + 1)
    else match truthyTag it with
      | some g =>
        if g = G then some n
        else if g ∈ seen then slotPosAux G rest seen n
        else slotPosAux G rest (g :: seen) (n + 1)
      | none => slotPosAux G rest seen (n + 1)

/-- The output slot index where tag `G` is first encountered (see
`slotPosAux`). -/
def slotPos (items : List RawItem) (G : String) : Option Nat :=
  slotPosAux G items [] 0

lemma stub_not_full {item : RawItem}
    (h : isCodeActionWithoutEditsAndCommands item = true) :
    lcCodeActionIs item = false := by
  unfold isCodeActionWithoutEditsAndCommands at h
  unfold lcCodeActionIs
  simp only [Bool.and_eq_true] at h
  obtain ⟨⟨ht, hk⟩, he, hc⟩ := h
  simp [ht, hk, Option.isNone_iff_eq_none.mp he, Option.isNone_iff_eq_none.mp hc]

lemma validStub_of_not_full {item : RawItem}
    (hv : validItem item = true) (h : lcCodeActionIs item = false) :
    isCodeActionWithoutEditsAndCommands item = true := by
  unfold validItem validFull at hv
  simp only [Bool.or_eq_true, Bool.and_eq_true] at hv
  rcases hv with ⟨hfull, _⟩ | hstub
  · rw [h] at hfull; exact absurd hfull (by simp)
  · exact hstub

lemma validFull_not_truthy {item : RawItem}
    (hv : validItem item = true) (h : lcCodeActionIs item = true) :
    optTruthy item.command = false := by
  unfold validItem validFull at hv
  simp only [Bool.or_eq_true, Bool.and_eq_true] at hv
  rcases hv with ⟨_, hc⟩ | hstub
  · simpa using hc
  · rw [stub_not_full hstub] at h; exact absurd h (by simp)

lemma lookupGroup_append (l1 l2 : List (String × GroupEntry)) (g : String) :
    lookupGroup (l1 ++ l2) g =
      match lookupGroup l1 g with
      | some e => some e
      | none => lookupGroup l2 g := by
  induction l1 with
  | nil => simp [lookupGroup]
  | cons p rest ih =>
    obtain ⟨k, e⟩ := p
    by_cases hk : k = g <;> simp [lookupGroup, hk, ih]

lemma lookupGroup_append_single (grps : List (String × GroupEntry))
    (g g' : String) (e : GroupEntry) (hne : g' ≠ g) :
    lookupGroup (grps ++ [(g, e)]) g' = lookupGroup grps g' := by
  rw [lookupGroup_append]
  cases h : lookupGroup grps g' with
  | some e' => rfl
  | none => simp [lookupGroup, Ne.symm hne]

lemma lookupGroup_append_single_self (grps : List (String × GroupEntry))
    (g : String) (e : GroupEntry) (h : lookupGroup grps g = none) :
    lookupGroup (grps ++ [(g, e)]) g = some e := by
  rw [lookupGroup_append, h]
  simp [lookupGroup]

lemma pushItem_lookup_ne (grps : List (String × GroupEntry))
    (g g' : String) (a : DisplayAction) (hne : g' ≠ g) :
    lookupGroup (pushItem grps g a) g' = lookupGroup grps g' := by
  induction grps with
  | nil => simp [pushItem]
  | cons p rest ih =>
    obtain ⟨k, e⟩ := p
    by_cases hk : k = g
    · subst hk
      simp [pushItem, lookupGroup, Ne.symm hne]
    · by_cases hk' : k = g' <;> simp [pushItem, lookupGroup, hk, hk', hne, ih]

lemma pushItem_lookup_self (grps : List (String × GroupEntry))
    (g : String) (a : DisplayAction) (e : GroupEntry)
    (h : lookupGroup grps g = some e) :
    lookupGroup (pushItem grps g a) g = some ⟨e.index, e.items ++ [a]⟩ := by
  induction grps with
  | nil => simp [lookupGroup] at h
  | cons p rest ih =>
    obtain ⟨k, e'⟩ := p
    by_cases hk : k = g
    · subst hk
      simp [lookupGroup] at h
      subst h
      simp [pushItem, lookupGroup]
    · simp [lookupGroup, hk] at h
      simp [pushItem, lookupGroup, hk, ih h]

lemma pushItem_isSome (grps : List (String × GroupEntry))
    (g g' : String) (a : DisplayAction) :
    (lookupGroup (pushItem grps g a) g').isSome = (lookupGroup grps g').isSome := by
  by_cases hne : g' = g
  · subst hne
    cases h : lookupGroup grps g' with
    | none =>
      have : lookupGroup (pushItem grps g' a) g' = none := by
        induction grps with
        | nil => simp [pushItem, lookupGroup]
        | cons p rest ih =>
          obtain ⟨k, e⟩ := p
          by_cases hk : k = g'
          · subst hk; simp [lookupGroup] at h
          · simp [lookupGroup, hk] at h
            simp [pushItem, lookupGroup, hk, ih h]
      simp [this, h]
    | some e => simp [pushItem_lookup_self grps g' a e h, h]
  · rw [pushItem_lookup_ne grps g g' a hne]

lemma processItems_append (params : CodeActionParams) (l1 l2 : List RawItem)
    (st : List OutItem × List (String × GroupEntry)) :
    processItems params (l1 ++ l2) st =
      match processItems params l1 st with
      | .error m => .error m
      | .ok st' => processItems params l2 st' := by
  induction l1 generalizing st with
  | nil => simp [processItems]
  | cons it rest ih =>
    simp only [List.cons_append, processItems]
    cases processItem params st it with
    | error m => rfl
    | ok st' => exact ih st'

lemma filter_split {α : Type} (p : α → Bool) :
    ∀ (l : List α) (x : α) (xs : List α), l.filter p = x :: xs →
      ∃ l1 l2, l = l1 ++ x :: l2 ∧ l1.filter p = [] ∧ l2.filter p = xs ∧ p x = true := by
  intro l
  induction l with
  | nil => intro x xs h; simp at h
  | cons a rest ih =>
    intro x xs h
    by_cases ha : p a = true
    · rw [List.filter_cons_of_pos ha] at h
      obtain ⟨rfl, rfl⟩ : a = x ∧ rest.filter p = xs := by
        constructor <;> [exact (List.cons.injEq _ _ _ _ ▸ h).1; exact (List.cons.injEq _ _ _ _ ▸ h).2]
      exact ⟨[], rest, by simp, by simp, rfl, ha⟩
    · rw [List.filter_cons_of_neg (by simpa using ha)] at h
      obtain ⟨l1, l2, rfl, h1, h2, hx⟩ := ih x xs h
      exact ⟨a :: l1, l2, by simp, by simp [List.filter_cons_of_neg (by simpa using ha), h1], h2, hx⟩

lemma processItem_full (params : CodeActionParams)
    (st : List OutItem × List (String × GroupEntry)) {it : RawItem}
    (h1 : lcCodeActionIs it = true) (h2 : optTruthy it.command = false) :
    processItem params st it = .ok (st.1 ++ [OutItem.passthrough it], st.2) := by
  simp [processItem, h1, h2]

lemma processItem_ungrouped (params : CodeActionParams)
    (st : List OutItem × List (String × GroupEntry)) {it : RawItem}
    (hstub : isCodeActionWithoutEditsAndCommands it = true)
    (hg : truthyTag it = none) :
    processItem params st it = .ok (st.1 ++ [OutItem.act (mkAct params it)], st.2) := by
  simp [processItem, stub_not_full hstub, hstub, hg]

lemma processItem_grouped_fresh (params : CodeActionParams)
    (st : List OutItem × List (String × GroupEntry)) {it : RawItem} {g : String}
    (hstub : isCodeActionWithoutEditsAndCommands it = true)
    (hg : truthyTag it = some g) (hl : lookupGroup st.2 g = none) :
    processItem params st it = .ok (st.1 ++ [OutItem.act (mkAct params it)],
      st.2 ++ [(g, ⟨st.1.length, [mkAct params it]⟩)]) := by
  simp [processItem, stub_not_full hstub, hstub, hg, hl]

lemma processItem_grouped_seen (params : CodeActionParams)
    (st : List OutItem × List (String × GroupEntry)) {it : RawItem} {g : String}
    {e : GroupEntry}
    (hstub : isCodeActionWithoutEditsAndCommands it = true)
    (hg : truthyTag it = some g) (hl : lookupGroup st.2 g = some e) :
    processItem params st it = .ok (st.1, pushItem st.2 g (mkAct params it)) := by
  simp [processItem, stub_not_full hstub, hstub, hg, hl]

lemma processItems_ungrouped_stubs (params : CodeActionParams) :
    ∀ (items : List RawItem) (res : List OutItem)
      (grps : List (String × GroupEntry)),
    (∀ it ∈ items, isCodeActionWithoutEditsAndCommands it = true ∧ it.group = none) →
    processItems params items (res, grps) =
      .ok (res ++ items.map (fun it => OutItem.act (mkAct params it)), grps) := by
  intro items
  induction items with
  | nil => intro res grps _; simp [processItems]
  | cons it rest ih =>
    intro res grps h
    obtain ⟨hstub, hg⟩ := h it (List.mem_cons_self it rest)
    have htag : truthyTag it = none := by simp [truthyTag, hg]
    simp only [processItems,
      processItem_ungrouped params (res, grps) hstub htag]
    rw [ih (res ++ [OutItem.act (mkAct params it)]) grps
      (fun x hx => h x (List.mem_cons_of_mem it hx))]
    simp

/-- C3: on a list of group-less stubs the pass preserves input order, attaches
to each stub exactly the fixed `rust-analyzer.resolveCodeAction` invocation
carrying the stub's `id` and the original request parameters, and computes no
edit. -/
theorem claim_c3_ungrouped_pass (params : CodeActionParams) (items : List RawItem)
    (h : ∀ it ∈ items, isCodeActionWithoutEditsAndCommands it = true ∧ it.group = none) :
    provideCodeActions params (.ok (some items)) =
      (.ok (some (items.map fun it => OutItem.act
        { title := titleOf it
        , edit := none
        , command := some
            { command := "rust-analyzer.resolveCodeAction"
            , title := titleOf it
            , arguments := [CmdArg.resolve { id := it.id, codeActionParams := params }] } })), []) := by
  simp only [provideCodeActions, processItems_ungrouped_stubs params items [] [] h]
  simp [collapseGroups, mkAct]

/-- Witness for C3 at a concrete two-stub input. -/
theorem claim_c3_witness :
    (∀ it ∈ [({ title := JsonValue.str "A", id := some (JsonValue.str "idA") } : RawItem),
             { title := JsonValue.str "B", id := some (JsonValue.str "idB") }],
        isCodeActionWithoutEditsAndCommands it = true ∧ it.group = none) ∧
    provideCodeActions ⟨"doc", "rng", "ctx"⟩
      (.ok (some [{ title := JsonValue.str "A", id := some (JsonValue.str "idA") },
                  { title := JsonValue.str "B", id := some (JsonValue.str "idB") }])) =
      (.ok (some ([{ title := JsonValue.str "A", id := some (JsonValue.str "idA") },
                   ({ title := JsonValue.str "B", id := some (JsonValue.str "idB") } : RawItem)].map
        fun it => OutItem.act
        { title := titleOf it
        , edit := none
        , command := some
            { command := "rust-analyzer.resolveCodeAction"
            , title := titleOf it
            , arguments := [CmdArg.resolve { id := it.id, codeActionParams := ⟨"doc", "rng", "ctx"⟩ }] } })), []) := by
  refine ⟨by decide, claim_c3_ungrouped_pass _ _ (by decide)⟩

lemma processItem_error_of_bad (params : CodeActionParams)
    (st : List OutItem × List (String × GroupEntry)) {item : RawItem}
    (h : optTruthy item.command = true ∨ isStringV item.title = false) :
    ∃ msg, processItem params st item = .error msg := by
  rcases h with hc | ht
  · by_cases hfull : lcCodeActionIs item = true
    · exact ⟨"We don't expect to receive commands in CodeActions",
        by simp [processItem, hfull, hc]⟩
    · have hstub : isCodeActionWithoutEditsAndCommands item = false := by
        unfold isCodeActionWithoutEditsAndCommands
        cases hcmd : item.command with
        | none => rw [hcmd] at hc; simp [optTruthy] at hc
        | some v => simp [hcmd]
      have hfull2 : lcCodeActionIs item = false := by simpa using hfull
      exact ⟨"We don't expect edits or commands here",
        by simp [processItem, hfull2, hstub]⟩
  · have hfull : lcCodeActionIs item = false := by
      unfold lcCodeActionIs; simp [ht]
    have hstub : isCodeActionWithoutEditsAndCommands item = false := by
      unfold isCodeActionWithoutEditsAndCommands; simp [ht]
    exact ⟨"We don't expect edits or commands here",
      by simp [processItem, hfull, hstub]⟩

lemma processItems_error_of_mem (params : CodeActionParams) :
    ∀ (values : List RawItem) {item : RawItem}, item ∈ values →
    (optTruthy item.command = true ∨ isStringV item.title = false) →
    ∀ st, ∃ msg, processItems params values st = .error msg := by
  intro values
  induction values with
  | nil => intro item hmem; exact absurd hmem (List.not_mem_nil item)
  | cons it rest ih =>
    intro item hmem hbad st
    rcases List.mem_cons.mp hmem with rfl | hmem'
    · obtain ⟨msg, hmsg⟩ := processItem_error_of_bad params st hbad
      exact ⟨msg, by simp [processItems, hmsg]⟩
    · cases hstep : processItem params st it with
      | error msg => exact ⟨msg, by simp [processItems, hstep]⟩
      | ok st' =>
        obtain ⟨msg, hmsg⟩ := ih hmem' hbad st'
        exact ⟨msg, by simp [processItems, hstep, hmsg]⟩

/-- C4: an input element with a (truthy) `command` field, or one violating
the resolvable-stub shape such as a non-string title, makes the pass raise an
assertion failure instead of passing the element through. -/
theorem claim_c4_malformed_raises (params : CodeActionParams)
    (values : List RawItem) (item : RawItem) (hmem : item ∈ values)
    (hbad : optTruthy item.command = true ∨ isStringV item.title = false) :
    ∃ msg, (provideCodeActions params (.ok (some values))).1 = .error msg := by
  obtain ⟨msg, hmsg⟩ := processItems_error_of_mem params values hmem hbad ([], [])
  exact ⟨msg, by simp [provideCodeActions, hmsg]⟩

/-- Witness for C4: a stub carrying a command object (and no edit) aborts the
pass. -/
theorem claim_c4_witness :
    (({ title := JsonValue.str "A",
        command := some (JsonValue.obj [("command", JsonValue.str "foo")]) } : RawItem) ∈
      [({ title := JsonValue.str "A",
          command := some (JsonValue.obj [("command", JsonValue.str "foo")]) } : RawItem)]) ∧
    ∃ msg, (provideCodeActions ⟨"doc", "rng", "ctx"⟩
      (.ok (some [{ title := JsonValue.str "A"
                  , command := some (JsonValue.obj [("command", JsonValue.str "foo")]) }]))).1 =
      .error msg :=
  ⟨List.mem_singleton.mpr rfl,
   claim_c4_malformed_raises _ _ _ (List.mem_singleton.mpr rfl) (Or.inl rfl)⟩

/-- C6: a `null` code-action response (the explicit "no actions" signal)
resolves to `undefined`, never to an empty list. -/
theorem claim_c6_null_means_undefined (params : CodeActionParams) :
    (provideCodeActions params (.ok none)).1 = .ok none ∧
    (provideCodeActions params (.ok none)).1 ≠ .ok (some []) := by
  refine ⟨rfl, ?_⟩
  simp [provideCodeActions]

/-- C10: a stub whose group tag is the empty string is appended directly to
the output at its own position and the groups map is left untouched - exactly
the behaviour of an ungrouped stub, because `if (group)` tests truthiness. -/
theorem claim_c10_empty_tag_ungrouped (params : CodeActionParams)
    (res : List OutItem) (grps : List (String × GroupEntry)) (item : RawItem)
    (hstub : isCodeActionWithoutEditsAndCommands item = true)
    (hgroup : item.group = some "") :
    processItem params (res, grps) item =
      .ok (res ++ [OutItem.act (mkAct params item)], grps) :=
  processItem_ungrouped params (res, grps) hstub (by simp [truthyTag, hgroup])

/-- Witness for C10 at a concrete empty-tagged stub. -/
theorem claim_c10_witness :
    isCodeActionWithoutEditsAndCommands
      { title := JsonValue.str "A", group := some "" } = true ∧
    processItem ⟨"doc", "rng", "ctx"⟩ ([], [])
      { title := JsonValue.str "A", group := some "" } =
      .ok ([OutItem.act (mkAct ⟨"doc", "rng", "ctx"⟩
        { title := JsonValue.str "A", group := some "" })], []) :=
  ⟨rfl, claim_c10_empty_tag_ungrouped ⟨"doc", "rng", "ctx"⟩ [] [] _ rfl rfl⟩

lemma run_passthrough (params : CodeActionParams) :
    ∀ (xs : List OutItem) (res : List OutItem) (grps : List (String × GroupEntry)),
    (∀ o ∈ xs, ∃ it, o = OutItem.passthrough it ∧ lcCodeActionIs it = true ∧
      optTruthy it.command = false) →
    processItems params (xs.map toRawItem) (res, grps) = .ok (res ++ xs, grps) := by
  intro xs
  induction xs with
  | nil => intro res grps _; simp [processItems]
  | cons o rest ih =>
    intro res grps h
    obtain ⟨it, rfl, h1, h2⟩ := h o (List.mem_cons_self o rest)
    have hraw : toRawItem (OutItem.passthrough it) = it := rfl
    simp only [List.map_cons, processItems, hraw,
      processItem_full params (res, grps) h1 h2]
    rw [ih (res ++ [OutItem.passthrough it]) grps
      (fun x hx => h x (List.mem_cons_of_mem _ hx))]
    simp

lemma processItem_act_command_error (params : CodeActionParams)
    (st : List OutItem × List (String × GroupEntry)) {a : DisplayAction}
    (ha : a.command.isSome = true) :
    processItem params st (toRawItem (OutItem.act a)) =
      .error "We don't expect to receive commands in CodeActions" := by
  obtain ⟨c, hc⟩ := Option.isSome_iff_exists.mp ha
  have h1 : lcCodeActionIs (toRawItem (OutItem.act a)) = true := by
    simp [lcCodeActionIs, toRawItem, isStringV, hc]
  have h2 : optTruthy (toRawItem (OutItem.act a)).command = true := by
    simp [toRawItem, hc, cmdToJson, optTruthy, truthyJson]
  simp [processItem, h1, h2]

/-- C5 (amended): re-running the grouping pass on its own output is NOT a
no-op in general: the first stub-derived or composite output action (they all
carry a command) triggers the `!item.command` assertion; only edit-carrying,
commandless pass-through actions re-enter the pass unchanged. -/
theorem claim_c5_rerun_asserts (params : CodeActionParams)
    (xs ys : List OutItem) (a : DisplayAction)
    (hxs : ∀ o ∈ xs, ∃ it, o = OutItem.passthrough it ∧ lcCodeActionIs it = true ∧
      optTruthy it.command = false)
    (ha : a.command.isSome = true) :
    (provideCodeActions params
        (.ok (some ((xs ++ OutItem.act a :: ys).map toRawItem)))).1 =
      .error "We don't expect to receive commands in CodeActions" ∧
    provideCodeActions params (.ok (some (xs.map toRawItem))) = (.ok (some xs), []) := by
  constructor
  · have hsplit : (xs ++ OutItem.act a :: ys).map toRawItem =
        xs.map toRawItem ++ (toRawItem (OutItem.act a) :: ys.map toRawItem) := by
      simp
    rw [hsplit]
    simp [provideCodeActions, processItems_append,
      run_passthrough params xs [] [] hxs, processItems,
      processItem_act_command_error params _ ha]
  · simp [provideCodeActions, run_passthrough params xs [] [] hxs, collapseGroups]

/-- Witness for the amended C5: with no pass-through actions and one
command-carrying action, the re-run aborts. -/
theorem claim_c5_witness :
    (provideCodeActions ⟨"doc", "rng", "ctx"⟩
        (.ok (some ((([] : List OutItem) ++ OutItem.act
          { title := "A", edit := none
          , command := some { command := "c", title := "A", arguments := [] } } ::
            ([] : List OutItem)).map toRawItem)))).1 =
      .error "We don't expect to receive commands in CodeActions" ∧
    provideCodeActions ⟨"doc", "rng", "ctx"⟩
        (.ok (some (([] : List OutItem).map toRawItem))) = (.ok (some []), []) :=
  claim_c5_rerun_asserts ⟨"doc", "rng", "ctx"⟩ [] [] _
    (fun o ho => absurd ho (List.not_mem_nil o)) rfl

/-- Counterexample to C5 as stated: the pass turns a lone stub into a
deferred-resolution action, and re-feeding that output to the pass raises the
`!item.command` assertion instead of passing it through. -/
theorem claim_c5_counterexample :
    (provideCodeActions ⟨"doc", "rng", "ctx"⟩
        (.ok (some [{ title := JsonValue.str "A", id := some (JsonValue.str "idA") }]))).1 =
      .ok (some [OutItem.act (mkAct ⟨"doc", "rng", "ctx"⟩
        { title := JsonValue.str "A", id := some (JsonValue.str "idA") })]) ∧
    (provideCodeActions ⟨"doc", "rng", "ctx"⟩
        (.ok (some ([OutItem.act (mkAct ⟨"doc", "rng", "ctx"⟩
          { title := JsonValue.str "A", id := some (JsonValue.str "idA") })].map toRawItem)))).1 =
      .error "We don't expect to receive commands in CodeActions" :=
  ⟨rfl, rfl⟩

/-- Counterexample to C7 as stated: a rejected code-action request resolves
to `undefined` but writes nothing to the diagnostic channel (the rejection
handler is `(_error) => undefined`). -/
theorem claim_c7_counterexample :
    provideCodeActions ⟨"doc", "rng", "ctx"⟩ (.error "request rejected") =
      (.ok none, ([] : List LogEvent)) :=
  rfl

/-- C7 (amended): a rejected hover request is logged to the diagnostic
channel and resolves to `null`; a rejected code-action request resolves to
`undefined` without any logging. -/
theorem claim_c7_failure_handling (e : String) (params : CodeActionParams) :
    provideHover (.error e) = (none, [LogEvent.failedRequest "textDocument/hover" e]) ∧
    provideCodeActions params (.error e) = (.ok none, []) :=
  ⟨rfl, rfl⟩

/-- Counterexample to C9 as stated: a present-but-empty `actions` list is
truthy in JavaScript, so the hover still gains one (empty) extra markup
block. -/
theorem claim_c9_counterexample :
    provideHover (.ok (some { contents := [], actions := some [] })) =
      (some ⟨[{ value := "", isTrusted := true }]⟩, []) ∧
    (some (⟨[{ value := "", isTrusted := true }]⟩ : Hover) ≠ some (⟨[]⟩ : Hover)) :=
  ⟨rfl, by decide⟩

/-- C9 (amended): the hover enricher appends an extra markup block if and
only if the `actions` field is present (`if (actions)` tests truthiness, and
an array - even empty - is truthy); an absent field appends nothing. -/
theorem claim_c9_append_iff_present (r : HoverResult) :
    (provideHover (.ok (some r))).1 = some ⟨r.contents.map toTrusted ++
        (match r.actions with
         | some acts => [renderHoverActions acts]
         | none => [])⟩ ∧
    ((provideHover (.ok (some r))).1.map fun h => h.contents.length) =
      some (r.contents.length + if r.actions.isSome then 1 else 0) := by
  cases h : r.actions <;> simp [provideHover, h]

/-- Counterexample to C8 as stated: on the spec's example the rendering is
not `Fixes [Fix 1](command:x.fix?1 'Fix 1')` - the JSON array brackets are
percent-encoded and the tooltip slot renders the absent `tooltip` field. -/
theorem claim_c8_counterexample :
    (renderHoverActions
        [{ title := some "Fixes"
         , commands := [{ title := "Fix 1", command := "x.fix"
                        , arguments := [JsonValue.num 1] }] }]).value ≠
      "Fixes [Fix 1](command:x.fix?1 \x27Fix 1\x27)" := by
  decide

/-- C8 (amended): each group renders as its (truthy) title followed by its
command links joined by `. | .`, groups joined by `___`; a command link
renders as `[title](command:cmd?ENC 'tooltip')` where `ENC` URI-escapes the
JSON-serialized argument list (so `[1]` becomes `%5B1%5D`) and the tooltip
text is the link's `tooltip` field (rendering as `undefined` when absent),
not its label. -/
theorem claim_c8_rendering (acts : List CommandLinkGroup) :
    renderHoverActions acts = ⟨String.intercalate "___" (acts.map fun g =>
        groupTitlePart g.title ++ String.intercalate " | " (g.commands.map fun cmd =>
          "[" ++ cmd.title ++ "](command:" ++ cmd.command ++ "?" ++
            encodeURIComponent (jsonStringify (JsonValue.arr cmd.arguments)) ++
            " \x27" ++ tooltipText cmd.tooltip ++ "\x27)")), true⟩ ∧
    (renderHoverActions
        [{ title := some "Fixes"
         , commands := [{ title := "Fix 1", command := "x.fix"
                        , arguments := [JsonValue.num 1] }] }]).value =
      "Fixes [Fix 1](command:x.fix?%5B1%5D \x27undefined\x27)" ∧
    (renderHoverActions
        [{ title := some "Fixes"
         , commands := [{ title := "Fix 1", command := "x.fix", tooltip := some "Fix 1"
                        , arguments := [JsonValue.num 1] }] }]).value =
      "Fixes [Fix 1](command:x.fix?%5B1%5D \x27Fix 1\x27)" :=
  ⟨rfl, by decide, by decide⟩

lemma lookupGroup_none_iff (grps : List (String × GroupEntry)) (g : String) :
    lookupGroup grps g = none ↔ g ∉ grps.map Prod.fst := by
  induction grps with
  | nil => simp [lookupGroup]
  | cons p rest ih =>
    obtain ⟨k, e⟩ := p
    by_cases hk : k = g
    · subst hk; simp [lookupGroup]
    · simp [lookupGroup, hk, ih, Ne.symm hk]

lemma lookupGroup_some_mem {grps : List (String × GroupEntry)} {g : String}
    {e : GroupEntry} (h : lookupGroup grps g = some e) : (g, e) ∈ grps := by
  induction grps with
  | nil => simp [lookupGroup] at h
  | cons p rest ih =>
    obtain ⟨k, e'⟩ := p
    by_cases hk : k = g
    · subst hk
      simp [lookupGroup] at h
      simp [h]
    · simp [lookupGroup, hk] at h
      exact List.mem_cons_of_mem _ (ih h)

lemma mem_lookup_of_nodup {grps : List (String × GroupEntry)}
    (hnd : (grps.map Prod.fst).Nodup) {g : String} {e : GroupEntry}
    (hm : (g, e) ∈ grps) : lookupGroup grps g = some e := by
  induction grps with
  | nil => simp at hm
  | cons p rest ih =>
    obtain ⟨k, e'⟩ := p
    rcases List.mem_cons.mp hm with heq | hm'
    · obtain ⟨rfl, rfl⟩ := Prod.mk.injEq .. ▸ heq
      simp [lookupGroup]
    · have hk : k ≠ g := by
        rintro rfl
        have : k ∈ rest.map Prod.fst :=
          List.mem_map.mpr ⟨(k, e), hm', rfl⟩
        exact (List.nodup_cons.mp hnd).1 this
      simp only [lookupGroup, if_neg hk]
      exact ih (List.nodup_cons.mp hnd).2 hm'

lemma pushItem_keys (grps : List (String × GroupEntry)) (g : String)
    (a : DisplayAction) :
    (pushItem grps g a).map Prod.fst = grps.map Prod.fst := by
  induction grps with
  | nil => simp [pushItem]
  | cons p rest ih =>
    obtain ⟨k, e⟩ := p
    by_cases hk : k = g <;> simp [pushItem, hk, ih]

lemma pushItem_indices (grps : List (String × GroupEntry)) (g : String)
    (a : DisplayAction) :
    (pushItem grps g a).map (fun p => p.2.index) = grps.map (fun p => p.2.index) := by
  induction grps with
  | nil => simp [pushItem]
  | cons p rest ih =>
    obtain ⟨k, e⟩ := p
    by_cases hk : k = g <;> simp [pushItem, hk, ih]

lemma pushItem_mem_shape {grps : List (String × GroupEntry)} {g : String}
    {a : DisplayAction} {p : String × GroupEntry}
    (h : p ∈ pushItem grps g a) :
    p ∈ grps ∨ ∃ e, (g, e) ∈ grps ∧ p = (g, ⟨e.index, e.items ++ [a]⟩) := by
  induction grps with
  | nil => simp [pushItem] at h
  | cons q rest ih =>
    obtain ⟨k, e⟩ := q
    by_cases hk : k = g
    · subst hk
      simp only [pushItem, if_pos rfl] at h
      rcases List.mem_cons.mp h with rfl | hmem
      · exact Or.inr ⟨e, List.mem_cons_self _ _, rfl⟩
      · exact Or.inl (List.mem_cons_of_mem _ hmem)
    · simp only [pushItem, if_neg hk] at h
      rcases List.mem_cons.mp h with rfl | hmem
      · exact Or.inl (List.mem_cons_self _ _)
      · rcases ih hmem with hl | ⟨e', he', rfl⟩
        · exact Or.inl (List.mem_cons_of_mem _ hl)
        · exact Or.inr ⟨e', List.mem_cons_of_mem _ he', rfl⟩

/-- The invariant the loop state maintains: every reserved slot index is in
range, group keys and slot indices are pairwise distinct, every collected
member is a constructed stub action, and every output element so far is
either a pass-through or a constructed stub action. -/
def WFstate (params : CodeActionParams)
    (st : List OutItem × List (String × GroupEntry)) : Prop :=
  (∀ p ∈ st.2, p.2.index < st.1.length) ∧
  (st.2.map Prod.fst).Nodup ∧
  ((st.2.map fun p => p.2.index).Nodup) ∧
  (∀ p ∈ st.2, ∀ a ∈ p.2.items, ∃ it, a = mkAct params it) ∧
  (∀ x ∈ st.1, (∃ it, x = OutItem.passthrough it) ∨
    ∃ it, x = OutItem.act (mkAct params it))

lemma WF_step (params : CodeActionParams)
    {st st' : List OutItem × List (String × GroupEntry)} {it : RawItem}
    (hv : validItem it = true)
    (h : processItem params st it = .ok st') (hwf : WFstate params st) :
    WFstate params st' := by
  obtain ⟨hidx, hkeys, hinds, hitems, hres⟩ := hwf
  by_cases hfull : lcCodeActionIs it = true
  · rw [processItem_full params st hfull (validFull_not_truthy hv hfull)] at h
    injection h with h; subst h
    refine ⟨?_, hkeys, hinds, hitems, ?_⟩
    · intro p hp
      exact lt_of_lt_of_le (hidx p hp) (by simp)
    · intro x hx
      rcases List.mem_append.mp hx with hx | hx
      · exact hres x hx
      · rcases List.mem_singleton.mp hx with rfl
        exact Or.inl ⟨it, rfl⟩
  · have hstub := validStub_of_not_full hv (by simpa using hfull)
    cases htag : truthyTag it with
    | none =>
      rw [processItem_ungrouped params st hstub htag] at h
      injection h with h; subst h
      refine ⟨?_, hkeys, hinds, hitems, ?_⟩
      · intro p hp
        exact lt_of_lt_of_le (hidx p hp) (by simp)
      · intro x hx
        rcases List.mem_append.mp hx with hx | hx
        · exact hres x hx
        · rcases List.mem_singleton.mp hx with rfl
          exact Or.inr ⟨it, rfl⟩
    | some g =>
      cases hl : lookupGroup st.2 g with
      | none =>
        rw [processItem_grouped_fresh params st hstub htag hl] at h
        injection h with h; subst h
        refine ⟨?_, ?_, ?_, ?_, ?_⟩
        · intro p hp
          rcases List.mem_append.mp hp with hp | hp
          · exact lt_of_lt_of_le (hidx p hp) (by simp)
          · rcases List.mem_singleton.mp hp with rfl
            simp
        · rw [List.map_append]
          rw [List.nodup_append]
          refine ⟨hkeys, by simp, ?_⟩
          intro x hx hy
          simp only [List.map_cons, List.map_nil, List.mem_singleton] at hy
          subst hy
          exact (lookupGroup_none_iff st.2 _).mp hl hx
        · rw [List.map_append]
          rw [List.nodup_append]
          refine ⟨hinds, by simp, ?_⟩
          intro x hx hy
          simp only [List.map_cons, List.map_nil, List.mem_singleton] at hy
          subst hy
          obtain ⟨p, hp, hpx⟩ := List.mem_map.mp hx
          exact absurd (hpx ▸ hidx p hp) (lt_irrefl _)
        · intro p hp
          rcases List.mem_append.mp hp with hp | hp
          · exact hitems p hp
          · rcases List.mem_singleton.mp hp with rfl
            intro a ha
            rcases List.mem_singleton.mp ha with rfl
            exact ⟨it, rfl⟩
        · intro x hx
          rcases List.mem_append.mp hx with hx | hx
          · exact hres x hx
          · rcases List.mem_singleton.mp hx with rfl
            exact Or.inr ⟨it, rfl⟩
      | some e =>
        rw [processItem_grouped_seen params st hstub htag hl] at h
        injection h with h; subst h
        refine ⟨?_, ?_, ?_, ?_, hres⟩
        · intro p hp
          rcases pushItem_mem_shape hp with hp | ⟨e', he', rfl⟩
          · exact hidx p hp
          · exact hidx (g, e') he'
        · rw [pushItem_keys]; exact hkeys
        · rw [pushItem_indices]; exact hinds
        · intro p hp
          rcases pushItem_mem_shape hp with hp | ⟨e', he', rfl⟩
          · exact hitems p hp
          · intro a ha
            rcases List.mem_append.mp ha with ha | ha
            · exact hitems (g, e') he' a ha
            · rcases List.mem_singleton.mp ha with rfl
              exact ⟨it, rfl⟩

lemma WF_run (params : CodeActionParams) :
    ∀ (items : List RawItem) (st st' : List OutItem × List (String × GroupEntry)),
    (∀ it ∈ items, validItem it = true) →
    processItems params items st = .ok st' → WFstate params st → WFstate params st' := by
  intro items
  induction items with
  | nil =>
    intro st st' _ h hwf
    simp only [processItems] at h
    injection h with h; subst h
    exact hwf
  | cons it rest ih =>
    intro st st' hv h hwf
    simp only [processItems] at h
    cases hstep : processItem params st it with
    | error msg => rw [hstep] at h; exact absurd h (by simp)
    | ok st1 =>
      rw [hstep] at h
      exact ih st1 st' (fun x hx => hv x (List.mem_cons_of_mem _ hx)) h
        (WF_step params (hv it (List.mem_cons_self it rest)) hstep hwf)

lemma not_member_tag_ne {G g : String} {it : RawItem}
    (hfull : lcCodeActionIs it = false)
    (hstub : isCodeActionWithoutEditsAndCommands it = true)
    (htag : truthyTag it = some g)
    (hnm : isGroupMember G it = false) : g ≠ G := by
  intro hgG
  subst hgG
  unfold isGroupMember at hnm
  rw [hfull, hstub, htag] at hnm
  simp at hnm

lemma member_of_branches {G : String} {it : RawItem}
    (hfull : lcCodeActionIs it = false)
    (hstub : isCodeActionWithoutEditsAndCommands it = true)
    (htag : truthyTag it = some G) : isGroupMember G it = true := by
  unfold isGroupMember
  rw [hfull, hstub, htag]
  simp

lemma run_prefix (params : CodeActionParams) (G : String) :
    ∀ (pre : List RawItem) (res : List OutItem)
      (grps : List (String × GroupEntry)) (seen : List String),
    (∀ it ∈ pre, validItem it = true) →
    pre.filter (isGroupMember G) = [] →
    (∀ g, (lookupGroup grps g).isSome ↔ g ∈ seen) →
    ∃ res1 grps1 seen1,
      processItems params pre (res, grps) = .ok (res1, grps1) ∧
      (∀ g, (lookupGroup grps1 g).isSome ↔ g ∈ seen1) ∧
      lookupGroup grps1 G = lookupGroup grps G ∧
      (∀ rest, slotPosAux G (pre ++ rest) seen res.length =
        slotPosAux G rest seen1 res1.length) := by
  intro pre
  induction pre with
  | nil =>
    intro res grps seen _ _ hrel
    exact ⟨res, grps, seen, rfl, hrel, rfl, fun rest => by simp⟩
  | cons it pre' ih =>
    intro res grps seen hv hnm hrel
    have hvit := hv it (List.mem_cons_self it pre')
    have hv' := fun x hx => hv x (List.mem_cons_of_mem it hx)
    have hnmit : isGroupMember G it = false := by
      have := List.filter_eq_nil_iff.mp hnm it (List.mem_cons_self it pre')
      simpa using this
    have hnm' : pre'.filter (isGroupMember G) = [] :=
      List.filter_eq_nil_iff.mpr fun x hx => by
        simpa using List.filter_eq_nil_iff.mp hnm x (List.mem_cons_of_mem it hx)
    by_cases hfull : lcCodeActionIs it = true
    · obtain ⟨res1, grps1, seen1, hrun, hrel1, hG1, hslot⟩ :=
        ih (res ++ [OutItem.passthrough it]) grps seen hv' hnm' hrel
      refine ⟨res1, grps1, seen1, ?_, hrel1, hG1, ?_⟩
      · simp only [processItems,
          processItem_full params (res, grps) hfull (validFull_not_truthy hvit hfull)]
        exact hrun
      · intro rest
        have := hslot rest
        simp only [List.cons_append, slotPosAux, hfull, if_true] at *
        simpa using this
    · have hfull' : lcCodeActionIs it = false := by simpa using hfull
      have hstub := validStub_of_not_full hvit hfull'
      cases htag : truthyTag it with
      | none =>
        obtain ⟨res1, grps1, seen1, hrun, hrel1, hG1, hslot⟩ :=
          ih (res ++ [OutItem.act (mkAct params it)]) grps seen hv' hnm' hrel
        refine ⟨res1, grps1, seen1, ?_, hrel1, hG1, ?_⟩
        · simp only [processItems, processItem_ungrouped params (res, grps) hstub htag]
          exact hrun
        · intro rest
          have := hslot rest
          simp only [List.cons_append, slotPosAux, hfull', htag] at *
          simpa using this
      | some g =>
        have hgG : g ≠ G := not_member_tag_ne hfull' hstub htag hnmit
        cases hlg : lookupGroup grps g with
        | some e =>
          have hseen : g ∈ seen := (hrel g).mp (by simp [hlg])
          obtain ⟨res1, grps1, seen1, hrun, hrel1, hG1, hslot⟩ :=
            ih res (pushItem grps g (mkAct params it)) seen hv' hnm'
              (fun g' => by rw [pushItem_isSome]; exact hrel g')
          refine ⟨res1, grps1, seen1, ?_, hrel1, ?_, ?_⟩
          · simp only [processItems, processItem_grouped_seen params (res, grps) hstub htag hlg]
            exact hrun
          · rw [hG1, pushItem_lookup_ne grps g G _ (Ne.symm hgG)]
          · intro rest
            have := hslot rest
            simp only [List.cons_append, slotPosAux, hfull', htag, hgG, hseen,
              if_false, if_true] at *
            simpa using this
        | none =>
          have hseen : g ∉ seen := fun hmem => by
            have := (hrel g).mpr hmem
            rw [hlg] at this
            simp at this
          obtain ⟨res1, grps1, seen1, hrun, hrel1, hG1, hslot⟩ :=
            ih (res ++ [OutItem.act (mkAct params it)])
              (grps ++ [(g, ⟨res.length, [mkAct params it]⟩)]) (g :: seen) hv' hnm'
              (fun g' => by
                by_cases hg' : g' = g
                · subst hg'
                  rw [lookupGroup_append_single_self grps g' _ hlg]
                  simp
                · rw [lookupGroup_append_single grps g g' _ hg']
                  simp only [List.mem_cons]
                  rw [hrel g']
                  exact ⟨fun h => Or.inr h, fun h => h.resolve_left hg'⟩)
          refine ⟨res1, grps1, seen1, ?_, hrel1, ?_, ?_⟩
          · simp only [processItems, processItem_grouped_fresh params (res, grps) hstub htag hlg]
            exact hrun
          · rw [hG1, lookupGroup_append_single grps g G _ (Ne.symm hgG)]
          · intro rest
            have := hslot rest
            simp only [List.cons_append, slotPosAux, hfull', htag, hgG, hseen,
              if_false] at *
            simpa using this

lemma run_member_entry (params : CodeActionParams) (G : String) :
    ∀ (post : List RawItem) (res : List OutItem)
      (grps : List (String × GroupEntry)) (e : GroupEntry),
    (∀ it ∈ post, validItem it = true) →
    lookupGroup grps G = some e →
    ∃ resF grpsF,
      processItems params post (res, grps) = .ok (resF, grpsF) ∧
      lookupGroup grpsF G =
        some ⟨e.index, e.items ++ (post.filter (isGroupMember G)).map (mkAct params)⟩ := by
  intro post
  induction post with
  | nil =>
    intro res grps e _ hlook
    exact ⟨res, grps, rfl, by simpa using hlook⟩
  | cons it post' ih =>
    intro res grps e hv hlook
    have hvit := hv it (List.mem_cons_self it post')
    have hv' := fun x hx => hv x (List.mem_cons_of_mem it hx)
    by_cases hfull : lcCodeActionIs it = true
    · have hmem : isGroupMember G it = false := by
        unfold isGroupMember
        rw [hfull]
        simp
      obtain ⟨resF, grpsF, hrun, hG⟩ :=
        ih (res ++ [OutItem.passthrough it]) grps e hv' hlook
      refine ⟨resF, grpsF, ?_, ?_⟩
      · simp only [processItems,
          processItem_full params (res, grps) hfull (validFull_not_truthy hvit hfull)]
        exact hrun
      · rwa [List.filter_cons_of_neg (by simp [hmem])]
    · have hfull' : lcCodeActionIs it = false := by simpa using hfull
      have hstub := validStub_of_not_full hvit hfull'
      cases htag : truthyTag it with
      | none =>
        have hmem : isGroupMember G it = false := by
          unfold isGroupMember
          rw [hfull', hstub, htag]
          simp
        obtain ⟨resF, grpsF, hrun, hG⟩ :=
          ih (res ++ [OutItem.act (mkAct params it)]) grps e hv' hlook
        refine ⟨resF, grpsF, ?_, ?_⟩
        · simp only [processItems, processItem_ungrouped params (res, grps) hstub htag]
          exact hrun
        · rwa [List.filter_cons_of_neg (by simp [hmem])]
      | some g =>
        by_cases hgG : g = G
        · subst hgG
          have hmem := member_of_branches hfull' hstub htag
          obtain ⟨resF, grpsF, hrun, hG⟩ :=
            ih res (pushItem grps g (mkAct params it))
              ⟨e.index, e.items ++ [mkAct params it]⟩ hv'
              (pushItem_lookup_self grps g (mkAct params it) e hlook)
          refine ⟨resF, grpsF, ?_, ?_⟩
          · simp only [processItems,
              processItem_grouped_seen params (res, grps) hstub htag hlook]
            exact hrun
          · rw [List.filter_cons_of_pos hmem]
            simpa [List.append_assoc] using hG
        · have hmem : isGroupMember g it = true := member_of_branches hfull' hstub htag
          have hmemG : isGroupMember G it = false := by
            unfold isGroupMember
            rw [hfull', hstub, htag]
            simp [hgG]
          cases hlg : lookupGroup grps g with
          | some e2 =>
            obtain ⟨resF, grpsF, hrun, hG⟩ :=
              ih res (pushItem grps g (mkAct params it)) e hv'
                (by rw [pushItem_lookup_ne grps g G _ (Ne.symm hgG)]; exact hlook)
            refine ⟨resF, grpsF, ?_, ?_⟩
            · simp only [processItems,
                processItem_grouped_seen params (res, grps) hstub htag hlg]
              exact hrun
            · rwa [List.filter_cons_of_neg (by simp [hmemG])]
          | none =>
            obtain ⟨resF, grpsF, hrun, hG⟩ :=
              ih (res ++ [OutItem.act (mkAct params it)])
                (grps ++ [(g, ⟨res.length, [mkAct params it]⟩)]) e hv'
                (by rw [lookupGroup_append_single grps g G _ (Ne.symm hgG)]; exact hlook)
            refine ⟨resF, grpsF, ?_, ?_⟩
            · simp only [processItems,
                processItem_grouped_fresh params (res, grps) hstub htag hlg]
              exact hrun
            · rwa [List.filter_cons_of_neg (by simp [hmemG])]

lemma collapseGroups_nil (res : List OutItem) : collapseGroups res [] = res := rfl

lemma collapseGroups_cons (res : List OutItem) (p : String × GroupEntry)
    (rest : List (String × GroupEntry)) :
    collapseGroups res (p :: rest) =
      collapseGroups (res.set p.2.index (collapsedSlot p.1 p.2.items)) rest := rfl

lemma collapseGroups_length (grps : List (String × GroupEntry)) :
    ∀ res, (collapseGroups res grps).length = res.length := by
  induction grps with
  | nil => intro res; rfl
  | cons p rest ih =>
    intro res
    rw [collapseGroups_cons, ih, List.length_set]

lemma collapseGroups_getElem_of_not_index (grps : List (String × GroupEntry)) :
    ∀ (res : List OutItem) (j : Nat), (∀ p ∈ grps, p.2.index ≠ j) →
    (collapseGroups res grps)[j]? = res[j]? := by
  induction grps with
  | nil => intro res j _; rfl
  | cons p rest ih =>
    intro res j h
    rw [collapseGroups_cons,
      ih _ j (fun q hq => h q (List.mem_cons_of_mem p hq)),
      List.getElem?_set_ne (h p (List.mem_cons_self p rest))]

lemma collapseGroups_getElem_entry (grps : List (String × GroupEntry)) :
    ∀ (res : List OutItem) (g : String) (e : GroupEntry),
    ((grps.map fun p => p.2.index).Nodup) → (g, e) ∈ grps →
    e.index < res.length →
    (collapseGroups res grps)[e.index]? = some (collapsedSlot g e.items) := by
  induction grps with
  | nil => intro res g e _ hm; simp at hm
  | cons p rest ih =>
    intro res g e hnd hm hlt
    have hnd' : p.2.index ∉ rest.map (fun q => q.2.index) ∧
        (rest.map fun q => q.2.index).Nodup := by
      rw [List.map_cons] at hnd
      exact List.nodup_cons.mp hnd
    rcases List.mem_cons.mp hm with heq | hm'
    · subst heq
      rw [collapseGroups_cons]
      rw [collapseGroups_getElem_of_not_index rest _ _
        (fun q hq hqe => hnd'.1 (by rw [← hqe]; exact List.mem_map.mpr ⟨q, hq, rfl⟩))]
      exact List.getElem?_set_eq_of_lt _ hlt
    · rw [collapseGroups_cons]
      exact ih _ g e hnd'.2 hm' (by simpa [List.length_set] using hlt)

lemma isGroupMember_decomp {G : String} {it : RawItem}
    (h : isGroupMember G it = true) :
    lcCodeActionIs it = false ∧ isCodeActionWithoutEditsAndCommands it = true ∧
      truthyTag it = some G := by
  unfold isGroupMember at h
  simp only [Bool.and_eq_true, Bool.not_eq_true'] at h
  refine ⟨h.1.1, h.1.2, ?_⟩
  cases htag : truthyTag it with
  | none => rw [htag] at h; simp at h
  | some g =>
    rw [htag] at h
    have : g = G := by simpa using h.2
    rw [this]

lemma mkAct_ne_composite (params : CodeActionParams) (it : RawItem)
    (g t : String) (args : List CmdArg) :
    mkAct params it ≠
      { title := g, edit := none
      , command := some { command := "rust-analyzer.applyActionGroup"
                        , title := t, arguments := args } } := by
  intro h
  have := congrArg (fun d => d.command) h
  simp [mkAct] at this

lemma initial_WF (params : CodeActionParams) : WFstate params ([], []) := by
  refine ⟨?_, ?_, ?_, ?_, ?_⟩ <;> simp

lemma initial_rel : ∀ g : String,
    (lookupGroup ([] : List (String × GroupEntry)) g).isSome ↔ g ∈ ([] : List String) := by
  intro g
  simp [lookupGroup]

/-- C2: when exactly one stub carries tag `G`, the output slot reserved where
`G` was first seen holds that single member unwrapped - the very action an
ungrouped stub would have produced, with no composite wrapper. -/
theorem claim_c2_singleton_group_unwrapped (params : CodeActionParams)
    (items : List RawItem) (G : String) (m : RawItem)
    (hv : ∀ it ∈ items, validItem it = true)
    (hm : groupMembers items G = [m]) :
    ∃ out pos,
      provideCodeActions params (.ok (some items)) = (.ok (some out), []) ∧
      slotPos items G = some pos ∧
      out[pos]? = some (OutItem.act (mkAct params m)) := by
  unfold groupMembers at hm
  obtain ⟨pre, post, rfl, hpre, hpost, hmem⟩ := filter_split _ items m [] hm
  obtain ⟨hfull', hstub, htag⟩ := isGroupMember_decomp hmem
  have hv_pre : ∀ it ∈ pre, validItem it = true :=
    fun it hit => hv it (by simp [hit])
  have hv_post : ∀ it ∈ post, validItem it = true :=
    fun it hit => hv it (by simp [hit])
  obtain ⟨res1, grps1, seen1, hrun1, hrel1, hG1, hslot⟩ :=
    run_prefix params G pre [] [] [] hv_pre hpre initial_rel
  have hG1none : lookupGroup grps1 G = none := by
    rw [hG1]; rfl
  have hstep := processItem_grouped_fresh params (res1, grps1) hstub htag hG1none
  have hlook2 : lookupGroup (grps1 ++ [(G, ⟨res1.length, [mkAct params m]⟩)]) G =
      some ⟨res1.length, [mkAct params m]⟩ :=
    lookupGroup_append_single_self grps1 G _ hG1none
  obtain ⟨resF, grpsF, hrun3, hGF⟩ :=
    run_member_entry params G post
      (res1 ++ [OutItem.act (mkAct params m)])
      (grps1 ++ [(G, ⟨res1.length, [mkAct params m]⟩)])
      ⟨res1.length, [mkAct params m]⟩ hv_post hlook2
  have hrunAll : processItems params (pre ++ m :: post) ([], []) = .ok (resF, grpsF) := by
    rw [processItems_append, hrun1]
    simp only [processItems, hstep]
    exact hrun3
  have hWF : WFstate params (resF, grpsF) :=
    WF_run params (pre ++ m :: post) ([], []) (resF, grpsF) hv hrunAll (initial_WF params)
  have hGF' : lookupGroup grpsF G = some ⟨res1.length, [mkAct params m]⟩ := by
    rw [hGF, hpost]
    simp
  have hmemF : (G, (⟨res1.length, [mkAct params m]⟩ : GroupEntry)) ∈ grpsF :=
    lookupGroup_some_mem hGF'
  have hlt : res1.length < resF.length := hWF.1 _ hmemF
  refine ⟨collapseGroups resF grpsF, res1.length, ?_, ?_, ?_⟩
  · simp only [provideCodeActions, hrunAll]
  · have := hslot (m :: post)
    simp only [slotPosAux, hfull', htag, if_pos rfl] at this
    simpa [slotPos] using this
  · rw [collapseGroups_getElem_entry grpsF resF G _ hWF.2.2.1 hmemF hlt]
    rfl

lemma payload_map (params : CodeActionParams) (M : List RawItem) :
    (M.map (mkAct params)).map (fun a => (a.title, firstCmdArg a)) =
      M.map (fun it => (titleOf it,
        some (CmdArg.resolve { id := it.id, codeActionParams := params }))) := by
  rw [List.map_map]
  rfl

/-- The composite action C1 describes: titled by the group tag, sole
invocation the fixed `rust-analyzer.applyActionGroup` command, payload the
ordered list of `(label, member's first invocation argument)` pairs over the
tag's members in input order. -/
def groupCompositeAction (params : CodeActionParams) (items : List RawItem)
    (G : String) : DisplayAction :=
  { title := G
  , edit := none
  , command := some
      { command := "rust-analyzer.applyActionGroup"
      , title := ""
      , arguments := [CmdArg.payload ((groupMembers items G).map fun it =>
          (titleOf it, some (CmdArg.resolve { id := it.id, codeActionParams := params })))] } }

/-- C1: when k >= 2 stubs carry tag `G`, the output holds exactly one
composite action - at the slot reserved where `G` was first encountered -
titled by `G`, invoking `rust-analyzer.applyActionGroup`, with the ordered
`{label, arguments}` payload over the members in input order. -/
theorem claim_c1_group_collapses_to_composite (params : CodeActionParams)
    (items : List RawItem) (G : String)
    (hv : ∀ it ∈ items, validItem it = true)
    (hk : 2 ≤ (groupMembers items G).length) :
    ∃ out pos,
      provideCodeActions params (.ok (some items)) = (.ok (some out), []) ∧
      slotPos items G = some pos ∧
      out[pos]? = some (OutItem.act (groupCompositeAction params items G)) ∧
      ∀ j, out[j]? = some (OutItem.act (groupCompositeAction params items G)) → j = pos := by
  cases hM : groupMembers items G with
  | nil => rw [hM] at hk; simp at hk
  | cons m0 Mrest =>
  cases hMrest : Mrest with
  | nil => rw [hM, hMrest] at hk; simp at hk
  | cons m1 Mtail =>
  subst hMrest
  have hMfilter : items.filter (isGroupMember G) = m0 :: m1 :: Mtail := hM
  obtain ⟨pre, post, rfl, hpre, hpost, hmem⟩ :=
    filter_split _ items m0 (m1 :: Mtail) hMfilter
  obtain ⟨hfull', hstub, htag⟩ := isGroupMember_decomp hmem
  have hv_pre : ∀ it ∈ pre, validItem it = true :=
    fun it hit => hv it (by simp [hit])
  have hv_post : ∀ it ∈ post, validItem it = true :=
    fun it hit => hv it (by simp [hit])
  obtain ⟨res1, grps1, seen1, hrun1, hrel1, hG1, hslot⟩ :=
    run_prefix params G pre [] [] [] hv_pre hpre initial_rel
  have hG1none : lookupGroup grps1 G = none := by
    rw [hG1]; rfl
  have hstep := processItem_grouped_fresh params (res1, grps1) hstub htag hG1none
  have hlook2 : lookupGroup (grps1 ++ [(G, ⟨res1.length, [mkAct params m0]⟩)]) G =
      some ⟨res1.length, [mkAct params m0]⟩ :=
    lookupGroup_append_single_self grps1 G _ hG1none
  obtain ⟨resF, grpsF, hrun3, hGF⟩ :=
    run_member_entry params G post
      (res1 ++ [OutItem.act (mkAct params m0)])
      (grps1 ++ [(G, ⟨res1.length, [mkAct params m0]⟩)])
      ⟨res1.length, [mkAct params m0]⟩ hv_post hlook2
  have hrunAll : processItems params (pre ++ m0 :: post) ([], []) = .ok (resF, grpsF) := by
    rw [processItems_append, hrun1]
    simp only [processItems, hstep]
    exact hrun3
  have hWF : WFstate params (resF, grpsF) :=
    WF_run params (pre ++ m0 :: post) ([], []) (resF, grpsF) hv hrunAll (initial_WF params)
  have hGF' : lookupGroup grpsF G =
      some ⟨res1.length, (groupMembers (pre ++ m0 :: post) G).map (mkAct params)⟩ := by
    rw [hGF, hpost, hM]
    simp
  have hmemF : (G, (⟨res1.length,
      (groupMembers (pre ++ m0 :: post) G).map (mkAct params)⟩ : GroupEntry)) ∈ grpsF :=
    lookupGroup_some_mem hGF'
  have hlt : res1.length < resF.length := hWF.1 _ hmemF
  have hcoll : collapsedSlot G ((groupMembers (pre ++ m0 :: post) G).map (mkAct params)) =
      OutItem.act (groupCompositeAction params (pre ++ m0 :: post) G) := by
    unfold groupCompositeAction
    rw [← payload_map params (groupMembers (pre ++ m0 :: post) G)]
    rw [hM]
    rfl
  refine ⟨collapseGroups resF grpsF, res1.length, ?_, ?_, ?_, ?_⟩
  · simp only [provideCodeActions, hrunAll]
  · have := hslot (m0 :: post)
    simp only [slotPosAux, hfull', htag, if_pos rfl] at this
    simpa [slotPos] using this
  · rw [collapseGroups_getElem_entry grpsF resF G _ hWF.2.2.1 hmemF hlt]
    rw [hcoll]
  · intro j hj
    by_cases hex : ∃ p ∈ grpsF, p.2.index = j
    · obtain ⟨⟨g', e'⟩, hp, hpj⟩ := hex
      have hj' : (collapseGroups resF grpsF)[j]? = some (collapsedSlot g' e'.items) := by
        rw [← hpj]
        exact collapseGroups_getElem_entry grpsF resF g' e' hWF.2.2.1 hp (hWF.1 _ hp)
      rw [hj] at hj'
      have heq : collapsedSlot g' e'.items =
          OutItem.act (groupCompositeAction params (pre ++ m0 :: post) G) :=
        (Option.some.inj hj').symm
      have hsame : g' = G → j = res1.length := by
        intro hg'
        subst hg'
        have hlk := mem_lookup_of_nodup hWF.2.1 hp
        rw [hGF'] at hlk
        have he' : e' = ⟨res1.length,
            (groupMembers (pre ++ m0 :: post) g').map (mkAct params)⟩ :=
          (Option.some.inj hlk).symm
        rw [← hpj, he']
      cases hitems : e'.items with
      | nil =>
        refine hsame ?_
        rw [hitems] at heq
        have := congrArg (fun o => match o with
          | OutItem.act a => a.title
          | OutItem.passthrough _ => "") heq
        simpa [collapsedSlot, groupCompositeAction] using this
      | cons a tl =>
        cases htl : tl with
        | nil =>
          rw [hitems, htl] at heq
          obtain ⟨it', hit'⟩ := hWF.2.2.2.1 _ hp a (by rw [hitems, htl]; simp)
          subst hit'
          have : mkAct params it' = groupCompositeAction params (pre ++ m0 :: post) G := by
            have := heq
            simp only [collapsedSlot] at this
            exact OutItem.act.inj this
          exact absurd (this.trans (by unfold groupCompositeAction; rfl))
            (mkAct_ne_composite params it' G "" _)
        | cons b tl2 =>
          refine hsame ?_
          rw [hitems, htl] at heq
          have := congrArg (fun o => match o with
            | OutItem.act a => a.title
            | OutItem.passthrough _ => "") heq
          simpa [collapsedSlot, groupCompositeAction] using this
    · push_neg at hex
      rw [collapseGroups_getElem_of_not_index grpsF resF j hex] at hj
      have hmemR : OutItem.act (groupCompositeAction params (pre ++ m0 :: post) G) ∈ resF :=
        List.getElem?_mem hj
      rcases hWF.2.2.2.2 _ hmemR with ⟨it', h'⟩ | ⟨it', h'⟩
      · exact absurd h' (by simp)
      · have : mkAct params it' = groupCompositeAction params (pre ++ m0 :: post) G :=
          (OutItem.act.inj h').symm
        exact absurd (this.trans (by unfold groupCompositeAction; rfl))
          (mkAct_ne_composite params it' G "" _)

/-- Witness for C1 on the spec's example
`[{title:"A", group:"g1"}, {title:"B"}, {title:"C", group:"g1"}]`. -/
theorem claim_c1_witness :
    (∀ it ∈ [({ title := JsonValue.str "A", group := some "g1"
              , id := some (JsonValue.str "idA") } : RawItem),
             { title := JsonValue.str "B", id := some (JsonValue.str "idB") },
             { title := JsonValue.str "C", group := some "g1"
             , id := some (JsonValue.str "idC") }], validItem it = true) ∧
    2 ≤ (groupMembers
          [({ title := JsonValue.str "A", group := some "g1"
            , id := some (JsonValue.str "idA") } : RawItem),
           { title := JsonValue.str "B", id := some (JsonValue.str "idB") },
           { title := JsonValue.str "C", group := some "g1"
           , id := some (JsonValue.str "idC") }] "g1").length ∧
    ∃ out pos,
      provideCodeActions ⟨"doc", "rng", "ctx"⟩
        (.ok (some [({ title := JsonValue.str "A", group := some "g1"
                     , id := some (JsonValue.str "idA") } : RawItem),
                    { title := JsonValue.str "B", id := some (JsonValue.str "idB") },
                    { title := JsonValue.str "C", group := some "g1"
                    , id := some (JsonValue.str "idC") }])) = (.ok (some out), []) ∧
      slotPos
        [({ title := JsonValue.str "A", group := some "g1"
          , id := some (JsonValue.str "idA") } : RawItem),
         { title := JsonValue.str "B", id := some (JsonValue.str "idB") },
         { title := JsonValue.str "C", group := some "g1"
         , id := some (JsonValue.str "idC") }] "g1" = some pos ∧
      out[pos]? = some (OutItem.act (groupCompositeAction ⟨"doc", "rng", "ctx"⟩
        [({ title := JsonValue.str "A", group := some "g1"
          , id := some (JsonValue.str "idA") } : RawItem),
         { title := JsonValue.str "B", id := some (JsonValue.str "idB") },
         { title := JsonValue.str "C", group := some "g1"
         , id := some (JsonValue.str "idC") }] "g1")) ∧
      ∀ j, out[j]? = some (OutItem.act (groupCompositeAction ⟨"doc", "rng", "ctx"⟩
        [({ title := JsonValue.str "A", group := some "g1"
          , id := some (JsonValue.str "idA") } : RawItem),
         { title := JsonValue.str "B", id := some (JsonValue.str "idB") },
         { title := JsonValue.str "C", group := some "g1"
         , id := some (JsonValue.str "idC") }] "g1")) → j = pos :=
  ⟨by decide, by decide,
   claim_c1_group_collapses_to_composite ⟨"doc", "rng", "ctx"⟩ _ "g1"
     (by decide) (by decide)⟩

/-- Witness for C2 on `[{title:"A", group:"g1"}, {title:"B"}]`. -/
theorem claim_c2_witness :
    (∀ it ∈ [({ title := JsonValue.str "A", group := some "g1"
              , id := some (JsonValue.str "idA") } : RawItem),
             { title := JsonValue.str "B", id := some (JsonValue.str "idB") }],
       validItem it = true) ∧
    groupMembers
      [({ title := JsonValue.str "A", group := some "g1"
        , id := some (JsonValue.str "idA") } : RawItem),
       { title := JsonValue.str "B", id := some (JsonValue.str "idB") }] "g1" =
      [{ title := JsonValue.str "A", group := some "g1"
       , id := some (JsonValue.str "idA") }] ∧
    ∃ out pos,
      provideCodeActions ⟨"doc", "rng", "ctx"⟩
        (.ok (some [({ title := JsonValue.str "A", group := some "g1"
                     , id := some (JsonValue.str "idA") } : RawItem),
                    { title := JsonValue.str "B", id := some (JsonValue.str "idB") }])) =
        (.ok (some out), []) ∧
      slotPos
        [({ title := JsonValue.str "A", group := some "g1"
          , id := some (JsonValue.str "idA") } : RawItem),
         { title := JsonValue.str "B", id := some (JsonValue.str "idB") }] "g1" = some pos ∧
      out[pos]? = some (OutItem.act (mkAct ⟨"doc", "rng", "ctx"⟩
        { title := JsonValue.str "A", group := some "g1"
        , id := some (JsonValue.str "idA") })) :=
  ⟨by decide, rfl,
   claim_c2_singleton_group_unwrapped ⟨"doc", "rng", "ctx"⟩ _ "g1" _ (by decide) rfl⟩
